import Mathlib

/-!
Verification of `Service.consumption_for_month` from
`utilities_tracker/models.py`.

The method computes the total consumption of a service in a target
calendar month from a collection of cumulative meter readings:

    ms = sorted(self.measurements, key=lambda m: m.date)
    total = Decimal("0")
    prev_value = None
    for m in ms:
        if m.date.year == year and m.date.month == month:
            if prev_value is None:
                prev = next((x for x in reversed(ms) if x.date < m.date), None)
                prev_value = prev.value if prev else Decimal("0")
            total += m.value - prev_value
            prev_value = m.value
    return total

Embedding choices:
* `datetime.date` becomes a `Date` structure of three integers compared
  lexicographically (exactly Python's date ordering).
* `Decimal` values become `ℚ`: Python `Decimal` addition and subtraction
  are exact at these magnitudes, so the rational numbers model them
  faithfully.
* `sorted(..., key=...)` is a stable sort; `List.insertionSort` with the
  non-strict key order is stable in the same sense, so it is the model.
* A `Measurement` keeps only the columns the method reads (`date`,
  `value`); `id`, `note` and `service_id` are never read by it.
-/

namespace UtilitiesTracker

/-- Python `datetime.date`: year, month, day as integers. -/
structure Date where
  year : Int
  month : Int
  day : Int
deriving DecidableEq, Repr

/-- Python date `<` : lexicographic on (year, month, day). -/
def Date.lt (a b : Date) : Prop :=
  a.year < b.year ∨
    (a.year = b.year ∧ (a.month < b.month ∨ (a.month = b.month ∧ a.day < b.day)))

/-- Python date `<=` : lexicographic on (year, month, day). -/
def Date.le (a b : Date) : Prop :=
  a.year < b.year ∨
    (a.year = b.year ∧ (a.month < b.month ∨ (a.month = b.month ∧ a.day ≤ b.day)))

instance (a b : Date) : Decidable (Date.lt a b) :=
  inferInstanceAs (Decidable (_ ∨ (_ ∧ (_ ∨ (_ ∧ _)))))

instance (a b : Date) : Decidable (Date.le a b) :=
  inferInstanceAs (Decidable (_ ∨ (_ ∧ (_ ∨ (_ ∧ _)))))

/-- The portion of the invariant `datetime.date` enforces at construction
that the proofs rely on: month in 1..12, day at least 1 (its true upper
bound depends on the month; 31 is the coarse bound), year in Python's
`MINYEAR..MAXYEAR`. -/
def Date.Valid (d : Date) : Prop :=
  1 ≤ d.month ∧ d.month ≤ 12 ∧ 1 ≤ d.day ∧ d.day ≤ 31 ∧ 1 ≤ d.year ∧ d.year ≤ 9999

instance (d : Date) : Decidable (Date.Valid d) :=
  inferInstanceAs (Decidable (_ ∧ _ ∧ _ ∧ _ ∧ _ ∧ _))

/-- The columns of `Measurement` that `consumption_for_month` reads. -/
structure Measurement where
  date : Date
  value : ℚ
deriving DecidableEq, Repr

/-- The sort key order of `sorted(self.measurements, key=lambda m: m.date)`:
compare measurements by date (non-strict, so the sort is stable). -/
def measLe (a b : Measurement) : Prop := Date.le a.date b.date

instance : DecidableRel measLe := fun a b =>
  inferInstanceAs (Decidable (Date.le a.date b.date))

instance : IsTotal Measurement measLe :=
  ⟨fun a b => by unfold measLe Date.le; omega⟩

instance : IsTrans Measurement measLe :=
  ⟨fun a b c hab hbc => by unfold measLe Date.le at *; omega⟩

/-- Strict version of the key order, used for the uniqueness-of-sorted-order
argument when all dates are distinct. -/
def measLt (a b : Measurement) : Prop := Date.lt a.date b.date

instance : IsAntisymm Measurement measLt :=
  ⟨fun a b hab hba => by unfold measLt Date.lt at *; omega⟩

/-- `sorted(self.measurements, key=lambda m: m.date)` — Python's sort is
stable, and insertion sort with the non-strict key order is the stable
sort. -/
def sortByDate (ms : List Measurement) : List Measurement :=
  List.insertionSort measLe ms

/-- The loop guard `m.date.year == year and m.date.month == month`. -/
def inMonth (year month : Int) (r : Measurement) : Bool :=
  decide (r.date.year = year ∧ r.date.month = month)

/-- `next((x for x in reversed(ms) if x.date < d), None)`: the last element
of `s` (in list order) whose date is strictly before `d`. -/
def prevBefore (s : List Measurement) (d : Date) : Option Measurement :=
  s.reverse.find? (fun x => decide (Date.lt x.date d))

/-- `prev.value if prev else Decimal("0")` applied to the baseline search. -/
def carryValue (s : List Measurement) (d : Date) : ℚ :=
  ((prevBefore s d).map Measurement.value).getD 0

/-- The `for m in ms:` loop. `s` is the full sorted list (scanned by the
baseline search), the `List` argument is the remaining iteration suffix,
then the `total` and `prev_value` accumulators. -/
def consumptionLoop (s : List Measurement) (year month : Int) :
    List Measurement → ℚ → Option ℚ → ℚ
  | [], total, _ => total
  | r :: rest, total, prevValue =>
    if inMonth year month r then
      let pv : ℚ := prevValue.getD (carryValue s r.date)
      consumptionLoop s year month rest (total + (r.value - pv)) (some r.value)
    else
      consumptionLoop s year month rest total prevValue

/-- `Service.consumption_for_month`, with the measurement collection made
an explicit argument. -/
def consumption_for_month (measurements : List Measurement)
    (year month : Int) : ℚ :=
  let ms := sortByDate measurements
  consumptionLoop ms year month ms 0 none

/-- The accumulation performed by the loop once the baseline is fixed:
`teleSum prev l` adds `r.value - previous value` for each `r` in `l`,
threading the previous value. -/
def teleSum (prev : ℚ) : List Measurement → ℚ
  | [] => 0
  | r :: rest => (r.value - prev) + teleSum r.value rest

/-- The total contributed by the in-month readings `l`, given the loop
state `pv` (`prev_value`): the first reading diffs against `pv`, or
against the baseline search over `s` when `pv` is still `none`. -/
def afterFirst (s : List Measurement) (pv : Option ℚ) :
    List Measurement → ℚ
  | [] => 0
  | x :: xs =>
    (x.value - pv.getD (carryValue s x.date)) + teleSum x.value xs

theorem afterFirst_cons (s : List Measurement) (pv : Option ℚ)
    (x : Measurement) (xs : List Measurement) :
    afterFirst s pv (x :: xs) =
      (x.value - pv.getD (carryValue s x.date)) + teleSum x.value xs := rfl

theorem afterFirst_some (s : List Measurement) (v : ℚ)
    (l : List Measurement) : afterFirst s (some v) l = teleSum v l := by
  cases l <;> rfl

/-- The loop only looks at the readings that pass the month guard. -/
theorem consumptionLoop_eq (s : List Measurement) (y m : Int) :
    ∀ (l : List Measurement) (total : ℚ) (pv : Option ℚ),
      consumptionLoop s y m l total pv =
        total + afterFirst s pv (l.filter (inMonth y m)) := by
  intro l
  induction l with
  | nil => intro total pv; simp [consumptionLoop, afterFirst]
  | cons r rest ih =>
    intro total pv
    by_cases h : inMonth y m r = true
    · rw [show consumptionLoop s y m (r :: rest) total pv =
          consumptionLoop s y m rest
            (total + (r.value - pv.getD (carryValue s r.date)))
            (some r.value) from by simp [consumptionLoop, h]]
      rw [ih, afterFirst_some, List.filter_cons_of_pos h, afterFirst_cons]
      ring
    · have hb : inMonth y m r = false := by simpa using h
      rw [show consumptionLoop s y m (r :: rest) total pv =
          consumptionLoop s y m rest total pv from by
            simp [consumptionLoop, hb]]
      rw [ih, List.filter_cons_of_neg (by simp [hb])]

/-- Closed form of `consumption_for_month`: the in-month readings of the
sorted series, folded with `afterFirst` from an undefined `prev_value`. -/
theorem consumption_closedForm (ms : List Measurement) (y m : Int) :
    consumption_for_month ms y m =
      afterFirst (sortByDate ms) none
        ((sortByDate ms).filter (inMonth y m)) := by
  unfold consumption_for_month
  rw [consumptionLoop_eq]
  ring

/-- Telescoping: the threaded deltas collapse to last value minus start. -/
theorem teleSum_getLast :
    ∀ (xs : List Measurement) (x : Measurement),
      teleSum x.value xs =
        ((x :: xs).getLast (List.cons_ne_nil x xs)).value - x.value := by
  intro xs
  induction xs with
  | nil => intro x; simp [teleSum]
  | cons y ys ih =>
    intro x
    rw [List.getLast_cons (List.cons_ne_nil y ys)]
    simp only [teleSum, ih y]
    ring

theorem sortByDate_perm (ms : List Measurement) :
    List.Perm (sortByDate ms) ms :=
  List.perm_insertionSort measLe ms

theorem sortByDate_sorted (ms : List Measurement) :
    List.Sorted measLe (sortByDate ms) :=
  List.sorted_insertionSort measLe ms

/-- Spec-side definition, written from the spec's words for the refinement
claims: the sum, over the in-month readings in ascending date order, of
each reading's value minus the previous in-month reading's value, the
first in-month reading diffed against the carry-in value — the value of
the latest reading strictly before it, or 0 if none. To be compared with
the code's `consumption_for_month`. -/
def specDeltaSum (measurements : List Measurement) (year month : Int) : ℚ :=
  match (sortByDate measurements).filter (inMonth year month) with
  | [] => 0
  | x :: xs =>
    (List.zipWith (fun cur prev => cur - prev)
      ((x :: xs).map Measurement.value)
      (carryValue (sortByDate measurements) x.date ::
        (x :: xs).map Measurement.value)).sum

theorem zipWith_sub_sum :
    ∀ (l : List Measurement) (c : ℚ),
      (List.zipWith (fun cur prev => cur - prev) (l.map Measurement.value)
        (c :: l.map Measurement.value)).sum = teleSum c l := by
  intro l
  induction l with
  | nil => intro c; simp [teleSum]
  | cons r rest ih =>
    intro c
    simp only [List.map_cons, List.zipWith_cons_cons, List.sum_cons, ih,
      teleSum]

/-- C1: for every collection of readings and every target (year, month),
`consumption_for_month` returns the sum over the in-month readings in
ascending date order of each reading's value minus the previous in-month
reading's value, the first diffed against the carry-in value (the latest
reading strictly before it, or 0 if none); on the spec's example the
result is exactly 60. -/
theorem consumption_matches_spec_delta_sum :
    (∀ (ms : List Measurement) (y m : Int),
        consumption_for_month ms y m = specDeltaSum ms y m) ∧
      consumption_for_month
          [⟨⟨2025, 1, 1⟩, 120⟩, ⟨⟨2025, 2, 1⟩, 150⟩, ⟨⟨2025, 2, 20⟩, 180⟩]
          2025 2 = 60 := by
  constructor
  · intro ms y m
    rw [consumption_closedForm]
    unfold specDeltaSum
    cases hf : (sortByDate ms).filter (inMonth y m) with
    | nil => simp [afterFirst]
    | cons x xs =>
      rw [afterFirst_cons, ← zipWith_sub_sum xs x.value]
      simp
  · norm_num [consumption_for_month, sortByDate, List.insertionSort,
      List.orderedInsert, measLe, Date.le, Date.lt, inMonth,
      consumptionLoop, prevBefore, carryValue]

/-- `datetime.date(year, month, 1)`: the first day of the target month. -/
def firstOfMonth (year month : Int) : Date := ⟨year, month, 1⟩

/-- The spec's baseline: the latest reading of the sorted series dated
strictly before the first day of the target month. -/
def prevBeforeMonth (s : List Measurement) (year month : Int) :
    Option Measurement :=
  s.reverse.find? (fun x => decide (Date.lt x.date (firstOfMonth year month)))

/-- Value of the spec's baseline, or 0 when no such reading exists. -/
def specCarryValue (s : List Measurement) (year month : Int) : ℚ :=
  ((prevBeforeMonth s year month).map Measurement.value).getD 0

/-- Spec-side variant of the delta sum whose carry-in baseline is the
latest reading strictly before the first day of the month (rather than
strictly before the first in-month reading, as the code searches). -/
def specDeltaSumMonthBaseline (measurements : List Measurement)
    (year month : Int) : ℚ :=
  match (sortByDate measurements).filter (inMonth year month) with
  | [] => 0
  | x :: xs =>
    (x.value - specCarryValue (sortByDate measurements) year month) +
      teleSum x.value xs

theorem find?_congr_on {α : Type} (p q : α → Bool) :
    ∀ l : List α, (∀ x ∈ l, p x = q x) → l.find? p = l.find? q := by
  intro l
  induction l with
  | nil => intro _; rfl
  | cons a t ih =>
    intro h
    have ha := h a (List.mem_cons_self a t)
    cases hq : q a with
    | true => simp [List.find?, ha, hq]
    | false =>
      simp only [List.find?, ha, hq]
      exact ih fun x hx => h x (List.mem_cons_of_mem a hx)

/-- The first element of the in-month filter of the sorted series is in
the month and minimal among the in-month readings. -/
theorem first_inMonth_facts (ms : List Measurement) (y m : Int)
    (x : Measurement) (xs : List Measurement)
    (hf : (sortByDate ms).filter (inMonth y m) = x :: xs) :
    (x.date.year = y ∧ x.date.month = m) ∧ x ∈ ms ∧
      ∀ r ∈ sortByDate ms, inMonth y m r = true → Date.le x.date r.date := by
  have hxmem : x ∈ (sortByDate ms).filter (inMonth y m) := by
    rw [hf]; exact List.mem_cons_self x xs
  have hxin : inMonth y m x = true := List.of_mem_filter hxmem
  have hxy : x.date.year = y ∧ x.date.month = m := by
    simpa [inMonth] using hxin
  have hsorted : List.Sorted measLe (x :: xs) := by
    rw [← hf]; exact (sortByDate_sorted ms).filter (inMonth y m)
  refine ⟨hxy, (sortByDate_perm ms).subset (List.mem_filter.mp hxmem).1, ?_⟩
  intro r hr hrin
  have hrf : r ∈ (sortByDate ms).filter (inMonth y m) :=
    List.mem_filter.mpr ⟨hr, hrin⟩
  rw [hf] at hrf
  rcases List.mem_cons.mp hrf with h | h
  · subst h; unfold Date.le; omega
  · exact List.rel_of_sorted_cons hsorted r h

theorem Date.lt_firstOfMonth_iff (d : Date) (y m : Int) :
    Date.lt d (firstOfMonth y m) ↔
      (d.year < y ∨ (d.year = y ∧ (d.month < m ∨ (d.month = m ∧ d.day < 1)))) :=
  Iff.rfl

/-- The two baseline bounds agree pointwise on the sorted series: a
reading is strictly before the first in-month reading exactly when it is
strictly before the first day of the month. Uses `day ≥ 1`, which
`datetime.date` guarantees. -/
theorem lt_first_iff_lt_firstOfMonth (ms : List Measurement) (y m : Int)
    (x : Measurement) (xs : List Measurement)
    (hf : (sortByDate ms).filter (inMonth y m) = x :: xs)
    (hday : ∀ r ∈ ms, 1 ≤ r.date.day) :
    ∀ r ∈ sortByDate ms,
      (Date.lt r.date x.date ↔ Date.lt r.date (firstOfMonth y m)) := by
  obtain ⟨⟨h1, h2⟩, hxms, hmin⟩ := first_inMonth_facts ms y m x xs hf
  have hxday : 1 ≤ x.date.day := hday x hxms
  intro r hr
  constructor
  · intro hlt
    by_contra hnot
    rw [Date.lt_firstOfMonth_iff] at hnot
    have hrin : inMonth y m r = true := by
      simp only [inMonth, decide_eq_true_eq]
      unfold Date.lt at hlt
      constructor <;> omega
    have hle := hmin r hr hrin
    unfold measLe Date.le at hle
    unfold Date.lt at hlt
    omega
  · intro hlt
    rw [Date.lt_firstOfMonth_iff] at hlt
    unfold Date.lt
    omega

theorem prevBefore_eq_prevBeforeMonth (ms : List Measurement) (y m : Int)
    (x : Measurement) (xs : List Measurement)
    (hf : (sortByDate ms).filter (inMonth y m) = x :: xs)
    (hday : ∀ r ∈ ms, 1 ≤ r.date.day) :
    prevBefore (sortByDate ms) x.date =
      prevBeforeMonth (sortByDate ms) y m := by
  have hiff := lt_first_iff_lt_firstOfMonth ms y m x xs hf hday
  unfold prevBefore prevBeforeMonth
  refine find?_congr_on _ _ _ ?_
  intro r hr
  exact decide_eq_decide.mpr (hiff r (List.mem_reverse.mp hr))

theorem carryValue_eq_specCarryValue (ms : List Measurement) (y m : Int)
    (x : Measurement) (xs : List Measurement)
    (hf : (sortByDate ms).filter (inMonth y m) = x :: xs)
    (hday : ∀ r ∈ ms, 1 ≤ r.date.day) :
    carryValue (sortByDate ms) x.date =
      specCarryValue (sortByDate ms) y m := by
  unfold carryValue specCarryValue
  rw [prevBefore_eq_prevBeforeMonth ms y m x xs hf hday]

/-- For valid dates, the code agrees with the formula whose carry-in
baseline is taken against the first day of the month. -/
theorem consumption_eq_monthBaseline (ms : List Measurement) (y m : Int)
    (hday : ∀ r ∈ ms, 1 ≤ r.date.day) :
    consumption_for_month ms y m = specDeltaSumMonthBaseline ms y m := by
  rw [consumption_closedForm]
  unfold specDeltaSumMonthBaseline
  cases hf : (sortByDate ms).filter (inMonth y m) with
  | nil => simp [afterFirst]
  | cons x xs =>
    rw [afterFirst_cons,
      carryValue_eq_specCarryValue ms y m x xs hf hday]
    simp

/-- C2: when at least one reading is dated in the target month, the
baseline the code actually searches for (the latest reading strictly
before the first in-month reading's date, over the entire sorted series)
is the same reading as the latest reading strictly before the first day
of the month (and the carry-in value is 0 when neither exists):
`consumption_for_month` equals the spec's month-first-day-baseline
formula. -/
theorem carry_in_baseline_equivalence (ms : List Measurement) (y m : Int)
    (x : Measurement) (xs : List Measurement)
    (hf : (sortByDate ms).filter (inMonth y m) = x :: xs)
    (hday : ∀ r ∈ ms, 1 ≤ r.date.day) :
    prevBefore (sortByDate ms) x.date =
        prevBeforeMonth (sortByDate ms) y m ∧
      consumption_for_month ms y m = specDeltaSumMonthBaseline ms y m :=
  ⟨prevBefore_eq_prevBeforeMonth ms y m x xs hf hday,
    consumption_eq_monthBaseline ms y m hday⟩

theorem carry_in_baseline_equivalence_witness :
    ((sortByDate [⟨⟨2025, 1, 1⟩, 120⟩, ⟨⟨2025, 2, 1⟩, 150⟩]).filter
        (inMonth 2025 2) = [⟨⟨2025, 2, 1⟩, 150⟩] ∧
      ∀ r ∈ [(⟨⟨2025, 1, 1⟩, 120⟩ : Measurement), ⟨⟨2025, 2, 1⟩, 150⟩],
        1 ≤ r.date.day) ∧
    (prevBefore (sortByDate [⟨⟨2025, 1, 1⟩, 120⟩, ⟨⟨2025, 2, 1⟩, 150⟩])
          (⟨⟨2025, 2, 1⟩, 150⟩ : Measurement).date =
        prevBeforeMonth
          (sortByDate [⟨⟨2025, 1, 1⟩, 120⟩, ⟨⟨2025, 2, 1⟩, 150⟩]) 2025 2 ∧
      consumption_for_month
          [⟨⟨2025, 1, 1⟩, 120⟩, ⟨⟨2025, 2, 1⟩, 150⟩] 2025 2 =
        specDeltaSumMonthBaseline
          [⟨⟨2025, 1, 1⟩, 120⟩, ⟨⟨2025, 2, 1⟩, 150⟩] 2025 2) :=
  ⟨⟨by decide, by decide⟩,
    carry_in_baseline_equivalence _ 2025 2 _ [] (by decide) (by decide)⟩

/-- C5: when exactly one reading is dated in the target month, the result
is that reading's value minus the value of the latest reading strictly
before the month (or minus 0 when no earlier reading exists); on the
spec's examples the results are exactly 150 and 30. -/
theorem single_inmonth_reading :
    (∀ (ms : List Measurement) (y m : Int) (x : Measurement),
        ms.filter (inMonth y m) = [x] →
        (∀ r ∈ ms, 1 ≤ r.date.day) →
        consumption_for_month ms y m =
          x.value - specCarryValue (sortByDate ms) y m) ∧
      consumption_for_month [⟨⟨2025, 2, 1⟩, 150⟩] 2025 2 = 150 ∧
      consumption_for_month
        [⟨⟨2025, 1, 1⟩, 120⟩, ⟨⟨2025, 2, 1⟩, 150⟩] 2025 2 = 30 := by
  refine ⟨?_, ?_, ?_⟩
  · intro ms y m x hms hday
    have hf : (sortByDate ms).filter (inMonth y m) = [x] := by
      have hp : List.Perm ((sortByDate ms).filter (inMonth y m))
          (ms.filter (inMonth y m)) := (sortByDate_perm ms).filter _
      rw [hms] at hp
      exact List.perm_singleton.mp hp
    rw [consumption_eq_monthBaseline ms y m hday]
    unfold specDeltaSumMonthBaseline
    rw [hf]
    simp [teleSum]
  · norm_num [consumption_for_month, sortByDate, List.insertionSort,
      List.orderedInsert, measLe, Date.le, Date.lt, inMonth,
      consumptionLoop, prevBefore, carryValue]
  · norm_num [consumption_for_month, sortByDate, List.insertionSort,
      List.orderedInsert, measLe, Date.le, Date.lt, inMonth,
      consumptionLoop, prevBefore, carryValue]

theorem single_inmonth_reading_witness :
    ([(⟨⟨2025, 1, 1⟩, 120⟩ : Measurement), ⟨⟨2025, 2, 1⟩, 150⟩].filter
        (inMonth 2025 2) = [⟨⟨2025, 2, 1⟩, 150⟩] ∧
      ∀ r ∈ [(⟨⟨2025, 1, 1⟩, 120⟩ : Measurement), ⟨⟨2025, 2, 1⟩, 150⟩],
        1 ≤ r.date.day) ∧
    consumption_for_month
        [⟨⟨2025, 1, 1⟩, 120⟩, ⟨⟨2025, 2, 1⟩, 150⟩] 2025 2 =
      (⟨⟨2025, 2, 1⟩, 150⟩ : Measurement).value -
        specCarryValue
          (sortByDate [⟨⟨2025, 1, 1⟩, 120⟩, ⟨⟨2025, 2, 1⟩, 150⟩]) 2025 2 :=
  ⟨⟨by decide, by decide⟩,
    single_inmonth_reading.1 _ 2025 2 _ (by decide) (by decide)⟩

/-- In a list sorted by date, every element's date is at most the last
element's date. -/
theorem sorted_le_getLast :
    ∀ (l : List Measurement) (hne : l ≠ []), List.Sorted measLe l →
      ∀ r ∈ l, Date.le r.date (l.getLast hne).date := by
  intro l
  induction l with
  | nil => intro hne; exact absurd rfl hne
  | cons a t ih =>
    intro hne hs r hr
    cases t with
    | nil =>
      have : r = a := by simpa using hr
      subst this
      simp only [List.getLast_singleton]
      unfold Date.le; omega
    | cons b u =>
      rw [List.getLast_cons (List.cons_ne_nil b u)]
      rcases List.mem_cons.mp hr with h | h
      · subst h
        exact List.rel_of_sorted_cons hs _
          (List.getLast_mem (List.cons_ne_nil b u))
      · exact ih (List.cons_ne_nil b u) hs.of_cons r h

/-- C10: for a collection with pairwise-distinct dates and at least one
in-month reading, the result telescopes to the latest in-month reading's
value minus the carry-in value (the value of the latest reading strictly
before the month, or 0 if none); the last element of the sorted in-month
filter really is the latest in-month reading. -/
theorem telescoping_identity (ms : List Measurement) (y m : Int)
    (x : Measurement) (xs : List Measurement)
    (hf : (sortByDate ms).filter (inMonth y m) = x :: xs)
    (hnd : List.Pairwise (fun a b => a.date ≠ b.date) ms)
    (hday : ∀ r ∈ ms, 1 ≤ r.date.day) :
    consumption_for_month ms y m =
        ((x :: xs).getLast (List.cons_ne_nil x xs)).value -
          specCarryValue (sortByDate ms) y m ∧
      ∀ r ∈ x :: xs,
        Date.le r.date ((x :: xs).getLast (List.cons_ne_nil x xs)).date := by
  constructor
  · rw [consumption_eq_monthBaseline ms y m hday]
    unfold specDeltaSumMonthBaseline
    rw [hf]
    show x.value - specCarryValue (sortByDate ms) y m + teleSum x.value xs = _
    rw [teleSum_getLast xs x]
    ring
  · have hsorted : List.Sorted measLe (x :: xs) := by
      rw [← hf]; exact (sortByDate_sorted ms).filter (inMonth y m)
    exact sorted_le_getLast (x :: xs) (List.cons_ne_nil x xs) hsorted

theorem telescoping_identity_witness :
    ((sortByDate [⟨⟨2025, 1, 1⟩, 120⟩, ⟨⟨2025, 2, 1⟩, 150⟩]).filter
        (inMonth 2025 2) = [⟨⟨2025, 2, 1⟩, 150⟩] ∧
      List.Pairwise (fun a b => a.date ≠ b.date)
        [(⟨⟨2025, 1, 1⟩, 120⟩ : Measurement), ⟨⟨2025, 2, 1⟩, 150⟩] ∧
      ∀ r ∈ [(⟨⟨2025, 1, 1⟩, 120⟩ : Measurement), ⟨⟨2025, 2, 1⟩, 150⟩],
        1 ≤ r.date.day) ∧
    (consumption_for_month
          [⟨⟨2025, 1, 1⟩, 120⟩, ⟨⟨2025, 2, 1⟩, 150⟩] 2025 2 =
        (([(⟨⟨2025, 2, 1⟩, 150⟩ : Measurement)]).getLast
              (List.cons_ne_nil _ _)).value -
          specCarryValue
            (sortByDate [⟨⟨2025, 1, 1⟩, 120⟩, ⟨⟨2025, 2, 1⟩, 150⟩]) 2025 2 ∧
      ∀ r ∈ [(⟨⟨2025, 2, 1⟩, 150⟩ : Measurement)],
        Date.le r.date
          (([(⟨⟨2025, 2, 1⟩, 150⟩ : Measurement)]).getLast
            (List.cons_ne_nil _ _)).date) :=
  ⟨⟨by decide, by decide, by decide⟩,
    telescoping_identity _ 2025 2 _ [] (by decide) (by decide) (by decide)⟩

theorem Date.eq_iff (a b : Date) :
    a = b ↔ (a.year = b.year ∧ a.month = b.month ∧ a.day = b.day) := by
  cases a; cases b; simp

theorem measLt_of_le_of_dates_ne {a b : Measurement} (hle : measLe a b)
    (hne : a.date ≠ b.date) : measLt a b := by
  have hne' : ¬(a.date.year = b.date.year ∧ a.date.month = b.date.month ∧
      a.date.day = b.date.day) :=
    fun hc => hne ((Date.eq_iff a.date b.date).mpr hc)
  unfold measLe Date.le at hle
  unfold measLt Date.lt
  omega

/-- A stable sort of a list with pairwise-distinct keys is determined by
the multiset of elements alone. -/
theorem sortByDate_eq_of_perm (ms₁ ms₂ : List Measurement)
    (hperm : List.Perm ms₁ ms₂)
    (hnd : List.Pairwise (fun a b => a.date ≠ b.date) ms₁) :
    sortByDate ms₁ = sortByDate ms₂ := by
  have hsymm : ∀ {a b : Measurement}, a.date ≠ b.date → b.date ≠ a.date :=
    fun h => h.symm
  have hp : List.Perm (sortByDate ms₁) (sortByDate ms₂) :=
    (sortByDate_perm ms₁).trans (hperm.trans (sortByDate_perm ms₂).symm)
  have hnd₁ : List.Pairwise (fun a b => a.date ≠ b.date) (sortByDate ms₁) :=
    (List.Perm.pairwise_iff hsymm (sortByDate_perm ms₁)).mpr hnd
  have hnd₂ : List.Pairwise (fun a b => a.date ≠ b.date) (sortByDate ms₂) :=
    (List.Perm.pairwise_iff hsymm hp).mp hnd₁
  have hstrict₁ : List.Sorted measLt (sortByDate ms₁) :=
    List.Pairwise.imp (fun h => measLt_of_le_of_dates_ne h.1 h.2)
      (List.Pairwise.and (sortByDate_sorted ms₁) hnd₁)
  have hstrict₂ : List.Sorted measLt (sortByDate ms₂) :=
    List.Pairwise.imp (fun h => measLt_of_le_of_dates_ne h.1 h.2)
      (List.Pairwise.and (sortByDate_sorted ms₂) hnd₂)
  exact List.eq_of_perm_of_sorted hp hstrict₁ hstrict₂

/-- C3 counterexample: with two readings sharing the same date, shuffling
the input collection changes the result (the stable sort preserves input
order among equal dates, and the loop's first-reading baseline differs),
so order-independence does not hold unconditionally. -/
theorem order_dependence_on_duplicate_dates :
    List.Perm [(⟨⟨2025, 2, 1⟩, 120⟩ : Measurement), ⟨⟨2025, 2, 1⟩, 150⟩]
        [⟨⟨2025, 2, 1⟩, 150⟩, ⟨⟨2025, 2, 1⟩, 120⟩] ∧
      consumption_for_month
          [⟨⟨2025, 2, 1⟩, 120⟩, ⟨⟨2025, 2, 1⟩, 150⟩] 2025 2 ≠
        consumption_for_month
          [⟨⟨2025, 2, 1⟩, 150⟩, ⟨⟨2025, 2, 1⟩, 120⟩] 2025 2 := by
  constructor
  · decide
  · norm_num [consumption_for_month, sortByDate, List.insertionSort,
      List.orderedInsert, measLe, Date.le, Date.lt, inMonth,
      consumptionLoop, prevBefore, carryValue]

/-- C3 amended: permuting the input collection does not change the result
provided the readings' dates are pairwise distinct (with a duplicated
date the result can depend on the input order). -/
theorem order_independence_distinct_dates (ms₁ ms₂ : List Measurement)
    (y m : Int) (hperm : List.Perm ms₁ ms₂)
    (hnd : List.Pairwise (fun a b => a.date ≠ b.date) ms₁) :
    consumption_for_month ms₁ y m = consumption_for_month ms₂ y m := by
  unfold consumption_for_month
  rw [sortByDate_eq_of_perm ms₁ ms₂ hperm hnd]

theorem order_independence_distinct_dates_witness :
    (List.Perm [(⟨⟨2025, 1, 1⟩, 120⟩ : Measurement), ⟨⟨2025, 2, 1⟩, 150⟩]
        [⟨⟨2025, 2, 1⟩, 150⟩, ⟨⟨2025, 1, 1⟩, 120⟩] ∧
      List.Pairwise (fun a b => a.date ≠ b.date)
        [(⟨⟨2025, 1, 1⟩, 120⟩ : Measurement), ⟨⟨2025, 2, 1⟩, 150⟩]) ∧
    consumption_for_month
        [⟨⟨2025, 1, 1⟩, 120⟩, ⟨⟨2025, 2, 1⟩, 150⟩] 2025 2 =
      consumption_for_month
        [⟨⟨2025, 2, 1⟩, 150⟩, ⟨⟨2025, 1, 1⟩, 120⟩] 2025 2 :=
  ⟨⟨by decide, by decide⟩,
    order_independence_distinct_dates _ _ 2025 2 (by decide) (by decide)⟩

/-- C4: whenever no reading is dated in the target month — in particular
for the empty collection, and for out-of-range month arguments applied to
valid calendar dates — the result is exactly the number 0 (not a missing
value), indistinguishable from a net-zero month. -/
theorem no_inmonth_readings_zero (ms : List Measurement) (y m : Int)
    (h : (∀ r ∈ ms, inMonth y m r = false) ∨
      ((m < 1 ∨ 12 < m) ∧ ∀ r ∈ ms, Date.Valid r.date)) :
    consumption_for_month ms y m = 0 := by
  have hnone : ∀ r ∈ ms, inMonth y m r = false := by
    rcases h with h | ⟨hm, hv⟩
    · exact h
    · intro r hr
      have hvr := hv r hr
      unfold Date.Valid at hvr
      simp only [inMonth, decide_eq_false_iff_not]
      rintro ⟨h1, h2⟩
      omega
  rw [consumption_closedForm]
  have hfe : (sortByDate ms).filter (inMonth y m) = [] := by
    rw [List.filter_eq_nil_iff]
    intro r hr
    simp [hnone r ((sortByDate_perm ms).subset hr)]
  rw [hfe]
  rfl

theorem no_inmonth_readings_zero_witness :
    ((∀ r ∈ [(⟨⟨2025, 1, 1⟩, 120⟩ : Measurement)],
        inMonth 2025 2 r = false) ∨
      ((2 < 1 ∨ 12 < 2) ∧ ∀ r ∈ [(⟨⟨2025, 1, 1⟩, 120⟩ : Measurement)],
        Date.Valid r.date)) ∧
      consumption_for_month [⟨⟨2025, 1, 1⟩, 120⟩] 2025 2 = 0 :=
  ⟨Or.inl (by decide), no_inmonth_readings_zero _ 2025 2 (Or.inl (by decide))⟩

/-- `(year, month) < (d.year, d.month)` lexicographically: the date `d`
falls strictly after the target month. -/
def dateAfterMonth (year month : Int) (d : Date) : Prop :=
  year < d.year ∨ (year = d.year ∧ month < d.month)

instance (y m : Int) (d : Date) : Decidable (dateAfterMonth y m d) :=
  inferInstanceAs (Decidable (_ ∨ (_ ∧ _)))

theorem measLe_trans {a b c : Measurement} (hab : measLe a b)
    (hbc : measLe b c) : measLe a c := by
  unfold measLe Date.le at *
  omega

theorem orderedInsert_of_forall_le (a : Measurement)
    (t : List Measurement) (h : ∀ c ∈ t, measLe a c) :
    List.orderedInsert measLe a t = a :: t := by
  cases t with
  | nil => rfl
  | cons c u =>
    simp [List.orderedInsert, h c (List.mem_cons_self c u)]

theorem filter_orderedInsert_pos (p : Measurement → Bool)
    (a : Measurement) (hp : p a = true) :
    ∀ t : List Measurement, List.Sorted measLe t →
      List.filter p (List.orderedInsert measLe a t) =
        List.orderedInsert measLe a (List.filter p t) := by
  intro t
  induction t with
  | nil => intro _; simp [List.orderedInsert, hp]
  | cons b u ih =>
    intro hs
    by_cases hab : measLe a b
    · rw [List.orderedInsert_of_le measLe u hab]
      cases hb : p b with
      | true =>
        rw [List.filter_cons_of_pos hp, List.filter_cons_of_pos hb,
          List.orderedInsert_of_le measLe (List.filter p u) hab]
      | false =>
        rw [List.filter_cons_of_pos hp, List.filter_cons_of_neg (by simp [hb])]
        rw [orderedInsert_of_forall_le a (List.filter p u)]
        intro c hc
        exact measLe_trans hab
          (List.rel_of_sorted_cons hs c (List.mem_of_mem_filter hc))
    · have hins : List.orderedInsert measLe a (b :: u) =
          b :: List.orderedInsert measLe a u := by
        simp [List.orderedInsert, hab]
      rw [hins]
      cases hb : p b with
      | true =>
        rw [List.filter_cons_of_pos hb, List.filter_cons_of_pos hb,
          ih hs.of_cons]
        have hins2 : List.orderedInsert measLe a (b :: List.filter p u) =
            b :: List.orderedInsert measLe a (List.filter p u) := by
          simp [List.orderedInsert, hab]
        rw [hins2]
      | false =>
        rw [List.filter_cons_of_neg (by simp [hb]),
          List.filter_cons_of_neg (by simp [hb]), ih hs.of_cons]

theorem filter_orderedInsert_neg (p : Measurement → Bool)
    (a : Measurement) (hp : p a = false) :
    ∀ t : List Measurement,
      List.filter p (List.orderedInsert measLe a t) = List.filter p t := by
  intro t
  induction t with
  | nil => simp [List.orderedInsert, hp]
  | cons b u ih =>
    by_cases hab : measLe a b
    · rw [List.orderedInsert_of_le measLe u hab,
        List.filter_cons_of_neg (by simp [hp])]
    · have hins : List.orderedInsert measLe a (b :: u) =
          b :: List.orderedInsert measLe a u := by
        simp [List.orderedInsert, hab]
      rw [hins]
      cases hb : p b with
      | true =>
        rw [List.filter_cons_of_pos hb, List.filter_cons_of_pos hb, ih]
      | false =>
        rw [List.filter_cons_of_neg (by simp [hb]),
          List.filter_cons_of_neg (by simp [hb]), ih]

/-- A stable sort commutes with filtering. -/
theorem sortByDate_filter (p : Measurement → Bool) :
    ∀ ms : List Measurement,
      sortByDate (ms.filter p) = (sortByDate ms).filter p := by
  intro ms
  induction ms with
  | nil => rfl
  | cons a t ih =>
    have hsort : sortByDate (a :: t) =
        List.orderedInsert measLe a (sortByDate t) := rfl
    cases hp : p a with
    | true =>
      rw [List.filter_cons_of_pos hp, hsort,
        filter_orderedInsert_pos p a hp (sortByDate t) (sortByDate_sorted t),
        ← ih]
      rfl
    | false =>
      rw [List.filter_cons_of_neg (by simp [hp]), hsort,
        filter_orderedInsert_neg p a hp (sortByDate t), ih]

theorem find?_filter_of_imp (q p : Measurement → Bool)
    (himp : ∀ r, q r = true → p r = true) :
    ∀ l : List Measurement,
      List.find? q (l.filter p) = List.find? q l := by
  intro l
  induction l with
  | nil => rfl
  | cons a t ih =>
    cases hp : p a with
    | true =>
      rw [List.filter_cons_of_pos hp]
      cases hq : q a with
      | true => simp [List.find?, hq]
      | false => simp only [List.find?, hq]; exact ih
    | false =>
      have hq : q a = false := by
        cases hqa : q a with
        | true => rw [himp a hqa] at hp; exact absurd hp (by simp)
        | false => rfl
      rw [List.filter_cons_of_neg (by simp [hp])]
      have hstep : List.find? q (a :: t) = List.find? q t := by
        simp [List.find?, hq]
      rw [hstep]
      exact ih

/-- Dropping the readings dated strictly after the target month does not
change the result: they fail the month guard, and the baseline search
bound (strictly before an in-month date) excludes them as well. -/
theorem consumption_filter_notAfter (ms : List Measurement) (y m : Int) :
    consumption_for_month ms y m =
      consumption_for_month
        (ms.filter (fun r => decide (¬ dateAfterMonth y m r.date))) y m := by
  rw [consumption_closedForm, consumption_closedForm,
    sortByDate_filter (fun r => decide (¬ dateAfterMonth y m r.date)) ms]
  have hfe : ((sortByDate ms).filter
        (fun r => decide (¬ dateAfterMonth y m r.date))).filter
        (inMonth y m) = (sortByDate ms).filter (inMonth y m) := by
    rw [List.filter_filter]
    refine List.filter_congr ?_
    intro r _
    cases hin : inMonth y m r with
    | false => simp
    | true =>
      have hym : r.date.year = y ∧ r.date.month = m := by
        simpa [inMonth] using hin
      have hnotafter : ¬ dateAfterMonth y m r.date := by
        unfold dateAfterMonth; omega
      simp [hnotafter]
  rw [hfe]
  cases hf : (sortByDate ms).filter (inMonth y m) with
  | nil => rfl
  | cons x xs =>
    rw [afterFirst_cons, afterFirst_cons]
    have hx : inMonth y m x = true :=
      List.of_mem_filter (hf ▸ List.mem_cons_self x xs)
    have hxym : x.date.year = y ∧ x.date.month = m := by
      simpa [inMonth] using hx
    have hcarry : carryValue ((sortByDate ms).filter
          (fun r => decide (¬ dateAfterMonth y m r.date))) x.date =
        carryValue (sortByDate ms) x.date := by
      unfold carryValue prevBefore
      rw [← List.filter_reverse]
      rw [find?_filter_of_imp _ _ ?_ (sortByDate ms).reverse]
      intro r hq
      have hlt : Date.lt r.date x.date := by simpa using hq
      have : ¬ dateAfterMonth y m r.date := by
        unfold Date.lt at hlt
        unfold dateAfterMonth
        omega
      simpa using this
    rw [hcarry]

/-- C6: readings dated strictly after the target month never affect the
result: two collections that agree once all after-month readings are
removed (so adding or removing any set of after-month readings) yield the
same consumption for that month. -/
theorem after_month_readings_irrelevant (ms₁ ms₂ : List Measurement)
    (y m : Int)
    (h : ms₁.filter (fun r => decide (¬ dateAfterMonth y m r.date)) =
      ms₂.filter (fun r => decide (¬ dateAfterMonth y m r.date))) :
    consumption_for_month ms₁ y m = consumption_for_month ms₂ y m := by
  rw [consumption_filter_notAfter ms₁ y m,
    consumption_filter_notAfter ms₂ y m, h]

theorem after_month_readings_irrelevant_witness :
    ([(⟨⟨2025, 2, 1⟩, 150⟩ : Measurement), ⟨⟨2025, 3, 1⟩, 999⟩].filter
        (fun r => decide (¬ dateAfterMonth 2025 2 r.date)) =
      [(⟨⟨2025, 2, 1⟩, 150⟩ : Measurement)].filter
        (fun r => decide (¬ dateAfterMonth 2025 2 r.date))) ∧
    consumption_for_month
        [⟨⟨2025, 2, 1⟩, 150⟩, ⟨⟨2025, 3, 1⟩, 999⟩] 2025 2 =
      consumption_for_month [⟨⟨2025, 2, 1⟩, 150⟩] 2025 2 :=
  ⟨by decide, after_month_readings_irrelevant _ _ 2025 2 (by decide)⟩

/-- C7: exact decimal arithmetic (modelled by the rational numbers, which
Python `Decimal` addition and subtraction match exactly at these
magnitudes): with a pre-month baseline equal to the first in-month value
and three in-month readings stepping by exactly one tenth, the chained
subtractions return exactly 2/10 — no binary-floating-point drift such as
0.19999999999999998 can occur. -/
theorem decimal_exact_tenths (v : ℚ) :
    consumption_for_month
      [⟨⟨2025, 1, 31⟩, v⟩, ⟨⟨2025, 2, 1⟩, v⟩, ⟨⟨2025, 2, 10⟩, v + 1 / 10⟩,
        ⟨⟨2025, 2, 20⟩, v + 2 / 10⟩] 2025 2 = 2 / 10 := by
  norm_num [consumption_for_month, sortByDate, List.insertionSort,
    List.orderedInsert, measLe, Date.le, Date.lt, inMonth, consumptionLoop,
    prevBefore, carryValue]

/-- C8: the calculator is total over its whole domain: for every finite
collection of dated rational readings and all integer year and month
(including months outside 1..12), it produces a value — the embedding is
a total computable function with no error channel, mirroring the absence
of any raise or input validation in the method body. -/
theorem total_on_full_domain :
    ∀ (ms : List Measurement) (y m : Int), ∃ r : ℚ,
      consumption_for_month ms y m = r :=
  fun ms y m => ⟨consumption_for_month ms y m, rfl⟩

/-- State-passing embedding of a method invocation: the method reads
`self.measurements`, sorts a fresh copy (`sorted` allocates a new list
and the attribute is never assigned), computes the total, and the stored
collection is returned unchanged as the final state. -/
def consumption_for_month_run (measurements : List Measurement)
    (year month : Int) : ℚ × List Measurement :=
  let ms := sortByDate measurements
  (consumptionLoop ms year month ms 0 none, measurements)

/-- C9: the invocation is deterministic and side-effect-free: its result
is exactly the value of the pure function of the inputs, and the
measurement collection after the call is exactly the one passed in. -/
theorem pure_and_preserves_input :
    ∀ (ms : List Measurement) (y m : Int),
      consumption_for_month_run ms y m =
        (consumption_for_month ms y m, ms) :=
  fun _ _ _ => rfl

end UtilitiesTracker
